import Mathlib

set_option autoImplicit false

/-!
Shallow embedding of the GORMx generic repository (src/base_repo.go, src/data.go)
and proofs about its specification.

Conventions of the embedding:
* Go byte strings are modelled as `List Nat` (one `Nat` per byte); the claims are
  about ASCII identifiers, where Go's byte-wise iteration coincides with the
  character-wise view, and `String`-level wrappers convert through code points.
* Go maps (`map[string]any`) are modelled as association lists `GMap`;
  a lookup returns the first binding, and Go's in-place map mutation is modelled
  by explicit state passing (functions return the caller-visible map contents).
* The wrapped ORM (gorm) is an external collaborator; the parts of its contract
  the repository relies on (conjunctive filters, offset/limit emission rules,
  physical `Delete`, transaction begin/commit/rollback) are modelled explicitly,
  and its default column-naming strategy is an opaque parameter `naming`.
-/

/-- True when byte `b` is an ASCII uppercase letter (Go: `d >= 'A' && d <= 'Z'`). -/
def isUpperB (b : Nat) : Bool := 65 ≤ b && b ≤ 90

/-- ASCII lowercasing of one byte, the action of Go's `strings.ToLower` on ASCII input. -/
def toLowerB (b : Nat) : Nat := if isUpperB b then b + 32 else b

/-- The loop of `Camel2Snake` (src/base_repo.go:336-348). The flag `j` records
whether a non-underscore byte has already been seen; an underscore (byte 95) is
inserted before an uppercase byte exactly when `j` is set (in the Go source the
guard also requires `i > 0`, which is implied by `j` being set, since `j` starts
false and is only set by an earlier iteration). -/
def c2sLoop : List Nat → Bool → List Nat
  | [], _ => []
  | d :: rest, j =>
    (if isUpperB d && j then [95, d] else [d]) ++ c2sLoop rest (j || d != 95)

/-- `Camel2Snake` (src/base_repo.go:332-351) on the byte representation:
run the insertion loop starting with `j = false`, then lowercase every byte. -/
def camel2SnakeBytes (s : List Nat) : List Nat :=
  (c2sLoop s false).map toLowerB

/-- The bytes of an ASCII `String` (code points; equal to the UTF-8 bytes on ASCII input). -/
def strBytes (s : String) : List Nat := s.data.map Char.toNat

/-- Rebuild a `String` from ASCII byte values. -/
def bytesStr (l : List Nat) : String := ⟨l.map Char.ofNat⟩

/-- `Camel2Snake` (src/base_repo.go:332-351) at the `String` level. -/
def Camel2Snake (s : String) : String := bytesStr (camel2SnakeBytes (strBytes s))

example : Camel2Snake "UserID" = "user_i_d" := by decide
example : Camel2Snake "user_id" = "user_id" := by decide
example : Camel2Snake "ID" = "i_d" := by decide
example : Camel2Snake "UserName" = "user_name" := by decide

/-- A database value (`any` in the Go maps): an integer or a string. -/
inductive GVal where
  | gi (n : Int)
  | gs (s : String)
deriving DecidableEq, Repr

/-- A Go `map[string]any`, modelled as an association list; `gmLookup` returns
the first binding, and writes shadow by prepending. -/
abbrev GMap := List (String × GVal)

/-- Map read: the value bound to `k`, or `none` when the key is absent. -/
def gmLookup (m : GMap) (k : String) : Option GVal :=
  match m.find? (fun kv => kv.1 == k) with
  | some kv => some kv.2
  | none => none

/-- Go's `delete(m, k)`: drop every binding of key `k`. -/
def eraseKey (m : GMap) (k : String) : GMap := m.filter (fun kv => kv.1 != k)

/-- True when `sub` is a prefix of `s` (on character lists). -/
def charsStartsWith : List Char → List Char → Bool
  | _, [] => true
  | [], _ :: _ => false
  | a :: s, b :: t => a == b && charsStartsWith s t

/-- True when `sub` occurs contiguously in `s` (on character lists). -/
def charsContains (sub : List Char) : List Char → Bool
  | [] => sub.isEmpty
  | c :: rest => charsStartsWith (c :: rest) sub || charsContains sub rest

/-- Go's `strings.Contains` (external collaborator), on ASCII strings. -/
def goContains (s sub : String) : Bool := charsContains sub.data s.data

/-- Go's `strings.Split` on a one-character separator (both separators used by
the tag parser, `;` and `:`, are single characters). -/
def splitOnChar (sep : Char) : List Char → List (List Char)
  | [] => [[]]
  | c :: rest =>
    let r := splitOnChar sep rest
    if c == sep then [] :: r
    else
      match r with
      | [] => [[c]]
      | h :: t => (c :: h) :: t

/-- ASCII whitespace, the characters `strings.TrimSpace` strips from ASCII input. -/
def isSpaceC (c : Char) : Bool := c == ' ' || c == '\t' || c == '\n' || c == '\r'

/-- Go's `strings.TrimSpace` on ASCII input. -/
def trimChars (l : List Char) : List Char :=
  ((l.dropWhile isSpaceC).reverse.dropWhile isSpaceC).reverse

/-- ASCII uppercasing of one character, the action of `strings.ToUpper` on ASCII. -/
def toUpperC (c : Char) : Char :=
  if 'a' ≤ c && c ≤ 'z' then Char.ofNat (c.toNat - 32) else c

/-- ASCII lowercasing of one character, the action of `strings.ToLower` on ASCII. -/
def toLowerC (c : Char) : Char :=
  if 'A' ≤ c && c ≤ 'Z' then Char.ofNat (c.toNat + 32) else c

/-- Go's `strings.Join(parts, ":")` on character lists. -/
def joinColon : List (List Char) → List Char
  | [] => []
  | [x] => x
  | x :: y :: t => x ++ ':' :: joinColon (y :: t)

/-- The field list of a record type `T`, in declaration order: each field is
either a named field with its `gorm` tag string, or an anonymous (embedded)
field carrying the field list of its type. (A right-nested representation is
used instead of `List` so that every recursion below is structural.) -/
inductive GField where
  | fnil
  | plain (name : String) (tag : String) (rest : GField)
  | embedded (name : String) (sub : GField) (rest : GField)
deriving DecidableEq

/-- gorm's `schema.ParseTagSetting(tag, ";")` (external collaborator): split the tag
 on `;`, split each part on `:`, store the trimmed upper-cased head as key with the
 rest rejoined by `:` as value (a part without `:` maps the key to itself). The
 backslash-escaped-separator continuation of the original is not exercised by any
 tag in this repository and is omitted. Later parts shadow earlier ones. -/
def parseTagSetting (str : String) : List (String × String) :=
  (splitOnChar ';' str.data).foldl
    (fun settings part =>
      match splitOnChar ':' part with
      | [] => settings
      | v0 :: rest =>
        let k : String := ⟨(trimChars v0).map toUpperC⟩
        if rest.isEmpty then
          (if k = "" then settings else (k, k) :: settings)
        else
          (k, (⟨joinColon rest⟩ : String)) :: settings)
    []

/-- Go map read with the zero-value default: the setting for `k`, or `""`. -/
def tagGet (settings : List (String × String)) (k : String) : String :=
  match settings.find? (fun p => p.1 == k) with
  | some p => p.2
  | none => ""

/-- gorm's `utils.CheckTruth` (external collaborator): some value is nonempty and
not (case-insensitively) `"false"`. -/
def CheckTruth (vals : List String) : Bool :=
  vals.any (fun v => v != "" && (⟨v.data.map toLowerC⟩ : String) != "false")

/-- Go's `ast.IsExported` on ASCII identifiers: the first character is an
uppercase letter. -/
def isExported (name : String) : Bool :=
  match name.data with
  | [] => false
  | c :: _ => 'A' ≤ c && c ≤ 'Z'

/-- The column a field maps to (src/base_repo.go:68-72): the `COLUMN` tag setting
if nonempty, otherwise the external naming strategy applied to the field name. -/
def columnNameOf (naming : String → String) (name tag : String) : String :=
  let c := tagGet (parseTagSetting tag) "COLUMN"
  if c = "" then naming name else c

/-- The loop and epilogue of `recursiveParsePrimaryKey` (src/base_repo.go:55-88),
with the `hasId` flag threaded through the scan of the remaining fields:
unexported fields are skipped; an embedded field is recursed into and a nonempty
result returned immediately; a field whose tag has a truthy `primaryKey` or
`primary_key` setting returns its column; a field whose column is `"id"` sets
`hasId`; after the scan, `"id"` is returned if `hasId` was set, else `""`. -/
def rppkGo (naming : String → String) : GField → Bool → String
  | .fnil, hasId => if hasId then "id" else ""
  | .plain name tag rest, hasId =>
    if isExported name then
      let ts := parseTagSetting tag
      let col := columnNameOf naming name tag
      if CheckTruth [tagGet ts "PRIMARYKEY", tagGet ts "PRIMARY_KEY"] then col
      else rppkGo naming rest (hasId || col == "id")
    else rppkGo naming rest hasId
  | .embedded name sub rest, hasId =>
    if isExported name then
      let res := rppkGo naming sub false
      if res ≠ "" then res else rppkGo naming rest hasId
    else rppkGo naming rest hasId

/-- `recursiveParsePrimaryKey` (src/base_repo.go:55-88) on a record shape;
`parsePrimaryKey` (src/base_repo.go:50-53) applies it to the zero value of `T`. -/
def recursiveParsePrimaryKey (naming : String → String) (fields : GField) : String :=
  rppkGo naming fields false

/-- The auto-timestamp test of `recursiveDeleteAutoTime` (src/base_repo.go:185-191):
the raw tag contains `autoCreateTime` (resp. `autoUpdateTime`) but not the
corresponding `:false` setting, via `strings.Contains`. -/
def isAutoTag (tag : String) : Bool :=
  (goContains tag "autoCreateTime" && !goContains tag "autoCreateTime:false") ||
  (goContains tag "autoUpdateTime" && !goContains tag "autoUpdateTime:false")

/-- `recursiveDeleteAutoTime` (src/base_repo.go:178-196): walk the fields in
declaration order (no exported-ness check here, unlike primary-key resolution),
recursing into embedded fields, and delete from the update map the key equal to
the Go field name of every auto-timestamp field. Go mutates the map in place;
the embedding returns the caller-visible map contents. -/
def recursiveDeleteAutoTime : GField → GMap → GMap
  | .fnil, upd => upd
  | .plain name tag rest, upd =>
    recursiveDeleteAutoTime rest (if isAutoTag tag then eraseKey upd name else upd)
  | .embedded _ sub rest, upd =>
    recursiveDeleteAutoTime rest (recursiveDeleteAutoTime sub upd)

/-- True when some (arbitrarily nested) field of the shape is an auto-timestamp
field whose Go field name is `k` — exactly the keys `recursiveDeleteAutoTime`
deletes. -/
def isAutoFieldName : GField → String → Bool
  | .fnil, _ => false
  | .plain name tag rest, k =>
    (isAutoTag tag && name == k) || isAutoFieldName rest k
  | .embedded _ sub rest, k =>
    isAutoFieldName sub k || isAutoFieldName rest k

/-- A database row: column name to value (src/data.go rows carry the soft-delete
marker in column `deleted`). -/
abbrev Row := GMap

/-- A table of rows, in database order. -/
abbrev Table := List Row

/-- The soft-delete enumeration (src/data.go): `Normal = 1`, `Deleted = 2`
(`Normal` itself collides with a Mathlib name, so only its value is recorded here). -/
def NormalVal : Int := 1

/-- The `Deleted` marker value (src/data.go): rows with `deleted = 2` are
logically removed. -/
def Deleted : Int := 2

/-- One conjunct of a gorm filter: a column-equals-value condition (from a
condition map or struct) or a column-not-equals-value condition (from the raw
`"deleted != ?"` clause). -/
inductive Atom where
  | aeq (col : String) (v : GVal)
  | ane (col : String) (v : GVal)

/-- SQL evaluation of one conjunct on a row; a missing column behaves like SQL
NULL and satisfies neither `=` nor `!=`. -/
def evalAtom (a : Atom) (r : Row) : Bool :=
  match a with
  | .aeq c v => match gmLookup r c with | some w => w == v | none => false
  | .ane c v => match gmLookup r c with | some w => w != v | none => false

/-- Conjunctive filter evaluation (gorm chains `Where` clauses with AND). -/
def evalConds (cs : List Atom) (r : Row) : Bool := cs.all (fun a => evalAtom a r)

/-- The equality conjunction a condition map denotes (`Where(map)`). -/
def atomsOfEq (m : GMap) : List Atom := m.map (fun kv => .aeq kv.1 kv.2)

/-- The standing soft-delete predicate `deleted != Deleted`
(src/base_repo.go:266,283,312,316). -/
def softAtom : Atom := .ane "deleted" (.gi Deleted)

/-- `camel2SnakeForMapKey` (src/base_repo.go:253-259): build a fresh map whose
keys are the `Camel2Snake` translations of the input keys; the input map is not
modified. -/
def camel2SnakeForMapKey (condition : GMap) : GMap :=
  condition.map (fun kv => (Camel2Snake kv.1, kv.2))

/-- `_select` (src/base_repo.go:261-270): find all rows satisfying the standing
soft-delete predicate and the caller's condition. -/
def _select (tbl : Table) (condition : List Atom) : List Row :=
  tbl.filter (fun r => evalAtom softAtom r && evalConds condition r)

/-- `Select` (src/base_repo.go:231-233): filter by the non-zero fields of a
struct condition, given here as the map of those fields' columns and values. -/
def Select (tbl : Table) (nonZero : GMap) : List Row :=
  _select tbl (atomsOfEq nonZero)

/-- `SelectByMap` (src/base_repo.go:248-251): normalize the condition keys,
then `_select`. -/
def SelectByMap (tbl : Table) (condition : GMap) : List Row :=
  _select tbl (atomsOfEq (camel2SnakeForMapKey condition))

/-- `SelectAll` (src/base_repo.go:236-238): `SelectByMap` with the empty map. -/
def SelectAll (tbl : Table) : List Row :=
  SelectByMap tbl []

/-- `SelectByPK` (src/base_repo.go:241-243): `SelectByMap` keyed by the cached
primary-key column. -/
def SelectByPK (pkCol : String) (tbl : Table) (pk : GVal) : List Row :=
  SelectByMap tbl [(pkCol, pk)]

/-- `selectOne` (src/base_repo.go:216-228): zero matches is `(nil, nil)`, more
than one match is a local error, one match returns the row. -/
def selectOne (tbl : Table) (condition : List Atom) : Except String (Option Row) :=
  let res := _select tbl condition
  if res.length = 0 then .ok none
  else if res.length > 1 then .error "db: select one error, result must be one"
  else .ok res.head?

/-- `SelectOne` (src/base_repo.go:199-201): `selectOne` on a struct condition
(the map of its non-zero fields). -/
def SelectOne (tbl : Table) (nonZero : GMap) : Except String (Option Row) :=
  selectOne tbl (atomsOfEq nonZero)

/-- `SelectOneByMap` (src/base_repo.go:211-214): normalize keys, then `selectOne`. -/
def SelectOneByMap (tbl : Table) (condition : GMap) : Except String (Option Row) :=
  selectOne tbl (atomsOfEq (camel2SnakeForMapKey condition))

/-- `SelectOneByPK` (src/base_repo.go:204-206): `SelectOneByMap` keyed by the
cached primary-key column. -/
def SelectOneByPK (pkCol : String) (tbl : Table) (pk : GVal) : Except String (Option Row) :=
  SelectOneByMap tbl [(pkCol, pk)]

/-- `DeleteByPK` (src/base_repo.go:109-118): gorm's `Delete` on a model with a
plain integer marker field (no recognized soft-delete field type) issues a
physical SQL DELETE for the rows matching the primary-key condition; the result
is the remaining table and the number of removed rows. -/
def DeleteByPK (pkCol : String) (tbl : Table) (pk : GVal) : Table × Int :=
  let cond := atomsOfEq [(pkCol, pk)]
  (tbl.filter (fun r => !evalConds cond r), ((tbl.filter (fun r => evalConds cond r)).length : Int))

/-- `DeleteByMap` (src/base_repo.go:123-131): normalize the condition keys, then
physically delete the matching rows, as in `DeleteByPK`. -/
def DeleteByMap (tbl : Table) (condition : GMap) : Table × Int :=
  let cond := atomsOfEq (camel2SnakeForMapKey condition)
  (tbl.filter (fun r => !evalConds cond r), ((tbl.filter (fun r => evalConds cond r)).length : Int))

/-- The plain fields of a shape with embedded fields flattened, as `(goName, tag)`
pairs, in gorm schema order. -/
def flatFields : GField → List (String × String)
  | .fnil => []
  | .plain name tag rest => (name, tag) :: flatFields rest
  | .embedded _ sub rest => flatFields sub ++ flatFields rest

/-- gorm's update-map key resolution (external collaborator): a key naming an
existing column is used as that column; a key equal to a field's Go name is
replaced by that field's column; an unknown key is used verbatim. -/
def resolveCol (naming : String → String) (fields : GField) (k : String) : String :=
  let ff := flatFields fields
  match ff.find? (fun p => columnNameOf naming p.1 p.2 == k) with
  | some _ => k
  | none =>
    match ff.find? (fun p => p.1 == k) with
    | some p => columnNameOf naming p.1 p.2
    | none => k

/-- Overwrite one column of a row. -/
def setCol (r : Row) (c : String) (v : GVal) : Row := (c, v) :: eraseKey r c

/-- Apply an update map to one row, resolving each key to its column. -/
def applyUpd (naming : String → String) (fields : GField) (r : Row) (upd : GMap) : Row :=
  upd.foldl (fun r kv => setCol r (resolveCol naming fields kv.1) kv.2) r

/-- The caller-visible outcome of `UpdateByMap`: the new table, the number of
matched rows, and the contents of the caller's two maps after the call (Go
mutates `updateData` in place and leaves `condition` untouched). Row-changed
versus row-matched counting by the SQL driver is outside this model. -/
structure UpdRes where
  table : Table
  rowsAffected : Int
  conditionAfter : GMap
  updateDataAfter : GMap

/-- `UpdateByMap` (src/base_repo.go:161-171): copy-normalize the condition keys,
strip auto-timestamp keys from `updateData` in place, then update every matching
row (no soft-delete predicate on the update path). -/
def UpdateByMap (naming : String → String) (fields : GField) (tbl : Table)
    (condition updateData : GMap) : UpdRes :=
  let c := camel2SnakeForMapKey condition
  let u := recursiveDeleteAutoTime fields updateData
  let hit := fun r => evalConds (atomsOfEq c) r
  { table := tbl.map (fun r => if hit r then applyUpd naming fields r u else r)
    rowsAffected := ((tbl.filter hit).length : Int)
    conditionAfter := condition
    updateDataAfter := u }

/-- `UpdateByPKWithMap` (src/base_repo.go:148-150): delegate to `UpdateByMap`
with the primary-key condition. -/
def UpdateByPKWithMap (naming : String → String) (fields : GField) (pkCol : String)
    (tbl : Table) (pk : GVal) (updateData : GMap) : UpdRes :=
  UpdateByMap naming fields tbl [(pkCol, pk)] updateData

/-- `PageParam` (src/base_repo.go:272-276); the Go fields are `int32`. -/
structure PageParam where
  pageNo : Int
  pageSize : Int
  orderBy : String

/-- Two's-complement wrap of Go `int32` arithmetic. -/
def int32wrap (n : Int) : Int := (n + 2 ^ 31) % 2 ^ 32 - 2 ^ 31

/-- gorm's `Offset` (external collaborator): the OFFSET clause is emitted only
for a positive argument, so non-positive offsets drop nothing. -/
def applyOffset (rows : List Row) (off : Int) : List Row := rows.drop off.toNat

/-- gorm's `Limit` (external collaborator): the LIMIT clause is emitted only for
a non-negative argument, so a negative limit returns everything. -/
def applyLimit (rows : List Row) (lim : Int) : List Row :=
  if lim < 0 then rows else rows.take lim.toNat

/-- The fetch of a paginated query: SQL orders before applying OFFSET/LIMIT, and
ORDER BY (an opaque comparator `cmp` interpreting `orderBy`) is applied only
when `orderBy` is nonempty (src/base_repo.go:290-295,317-322). -/
def pageFetch (matching : List Row) (p : PageParam) (cmp : Row → Row → Bool) : List Row :=
  let ordered := if p.orderBy != "" then matching.mergeSort cmp else matching
  applyLimit (applyOffset ordered (int32wrap (p.pageNo - 1) * p.pageSize)) p.pageSize

/-- `ListPage` (src/base_repo.go:278-303) over a prebuilt query `query`: append
the soft-delete predicate, count the matching rows when a page descriptor is
present, fetch (bounded and ordered only when a page descriptor is present), and
fall back to the fetched length when the count is zero; the total is returned as
`int32`. -/
def ListPage (tbl : Table) (query : List Atom) (page : Option PageParam)
    (cmp : Row → Row → Bool) : List Row × Int :=
  let q := query ++ [softAtom]
  let matching := tbl.filter (evalConds q)
  let total : Int := match page with
    | some _ => (matching.length : Int)
    | none => 0
  let res := match page with
    | none => matching
    | some p => pageFetch matching p cmp
  let total := if total = 0 then (res.length : Int) else total
  (res, int32wrap total)

/-- `PageSelect` (src/base_repo.go:305-330): as `ListPage`, but the soft-delete
predicate precedes the caller's raw condition in both the count query and the
fetch query. -/
def PageSelect (tbl : Table) (query : List Atom) (page : Option PageParam)
    (cmp : Row → Row → Bool) : List Row × Int :=
  let q := softAtom :: query
  let matching := tbl.filter (evalConds q)
  let total : Int := match page with
    | some _ => (matching.length : Int)
    | none => 0
  let res := match page with
    | none => matching
    | some p => pageFetch matching p cmp
  let total := if total = 0 then (res.length : Int) else total
  (res, int32wrap total)

/-- One write issued through a repository method inside a transaction body. -/
inductive DbOp where
  | ins (r : Row)
  | delByMap (condition : GMap)
  | updByMap (condition : GMap) (updateData : GMap)

/-- The effect of one write on a table: `Insert` appends, the others are the
delete and update operations above. -/
def applyOp (naming : String → String) (fields : GField) (t : Table) : DbOp → Table
  | .ins r => t ++ [r]
  | .delByMap condition => (DeleteByMap t condition).1
  | .updByMap condition updateData => (UpdateByMap naming fields t condition updateData).table

/-- A sequence of writes applied outside any transaction. -/
def runOps (naming : String → String) (fields : GField) (t : Table) (ops : List DbOp) : Table :=
  ops.foldl (applyOp naming fields) t

/-- An open transaction (gorm `Transaction`, external collaborator): the base
state it began from and the pending state including its uncommitted writes. -/
structure Tx where
  base : Table
  pending : Table

/-- Begin a transaction on the current state. -/
def txBegin (t : Table) : Tx := ⟨t, t⟩

/-- A write through the transaction-scoped connection only touches the pending
state. -/
def txStep (naming : String → String) (fields : GField) (tx : Tx) (op : DbOp) : Tx :=
  { tx with pending := applyOp naming fields tx.pending op }

/-- Commit exposes the pending writes. -/
def txCommit (tx : Tx) : Table := tx.pending

/-- Rollback restores the base state. -/
def txRollback (tx : Tx) : Table := tx.base

/-- `InTx` (src/base_repo.go:43-48, src/data.go:57-62): run the body with the
transaction injected into the derived context (so its repository calls write
through the transaction), then commit if the body returned no error and roll
back, propagating the error, otherwise. The body is modelled as the straight-line
sequence of writes it performs through the transaction-scoped context, together
with its returned error, both as a function of the state it observes. -/
def InTx (naming : String → String) (fields : GField) (t : Table)
    (body : Table → List DbOp × Option String) : Table × Option String :=
  let tx := txBegin t
  let r := body tx.pending
  let tx1 := r.1.foldl (txStep naming fields) tx
  match r.2 with
  | none => (txCommit tx1, none)
  | some e => (txRollback tx1, some e)

/-- For bytes below 128 the `Char` round trip is the identity. -/
theorem charOfNat_toNat_of_lt (n : Nat) (h : n < 128) : (Char.ofNat n).toNat = n := by
  have hv : n.isValidChar := Or.inl (by omega)
  unfold Char.ofNat
  rw [dif_pos hv]
  unfold Char.ofNatAux Char.toNat
  simp [UInt32.toNat, BitVec.toNat_ofNatLt]

/-- `strBytes` undoes `bytesStr` on lists of ASCII byte values. -/
theorem strBytes_bytesStr (l : List Nat) (h : ∀ b ∈ l, b < 128) :
    strBytes (bytesStr l) = l := by
  induction l with
  | nil => rfl
  | cons b rest ih =>
    have hb := h b (by simp)
    have hr := ih (fun x hx => h x (by simp [hx]))
    simp only [strBytes, bytesStr, List.map_cons] at hr ⊢
    rw [charOfNat_toNat_of_lt b hb]
    simpa using hr

/-- Lowercasing never yields an uppercase byte. -/
theorem isUpperB_toLowerB (b : Nat) : isUpperB (toLowerB b) = false := by
  simp only [toLowerB, isUpperB]
  split
  · rename_i h
    simp only [isUpperB, Bool.and_eq_true, decide_eq_true_eq] at h
    simp only [Bool.and_eq_false_iff, decide_eq_false_iff_not]
    omega
  · rename_i h
    simp only [isUpperB, Bool.and_eq_true, decide_eq_true_eq, not_and] at h
    simp only [Bool.and_eq_false_iff, decide_eq_false_iff_not]
    omega

/-- Lowercasing preserves the ASCII range. -/
theorem toLowerB_lt_128 (b : Nat) (h : b < 128) : toLowerB b < 128 := by
  simp only [toLowerB, isUpperB]
  split
  · rename_i hu
    simp only [Bool.and_eq_true, decide_eq_true_eq] at hu
    omega
  · exact h

/-- Every byte the insertion loop emits is an input byte or an underscore. -/
theorem mem_c2sLoop (l : List Nat) (j : Bool) (b : Nat) (hb : b ∈ c2sLoop l j) :
    b ∈ l ∨ b = 95 := by
  induction l generalizing j with
  | nil => simp [c2sLoop] at hb
  | cons d rest ih =>
    simp only [c2sLoop, List.mem_append] at hb
    rcases hb with hb | hb
    · split at hb
      · simp only [List.mem_cons, List.not_mem_nil, or_false] at hb
        rcases hb with hb | hb
        · exact Or.inr hb
        · exact Or.inl (by simp [hb])
      · simp only [List.mem_cons, List.not_mem_nil, or_false] at hb
        exact Or.inl (by simp [hb])
    · rcases ih _ hb with h | h
      · exact Or.inl (by simp [h])
      · exact Or.inr h

/-- On input with no uppercase byte the insertion loop is the identity,
whatever the flag. -/
theorem c2sLoop_of_no_upper (l : List Nat) (h : ∀ b ∈ l, isUpperB b = false) (j : Bool) :
    c2sLoop l j = l := by
  induction l generalizing j with
  | nil => rfl
  | cons d rest ih =>
    have hd := h d (by simp)
    simp [c2sLoop, hd, ih (fun b hb => h b (by simp [hb]))]

/-- Lowercasing is the identity on input with no uppercase byte. -/
theorem map_toLowerB_of_no_upper (l : List Nat) (h : ∀ b ∈ l, isUpperB b = false) :
    l.map toLowerB = l := by
  induction l with
  | nil => rfl
  | cons d rest ih =>
    have hd := h d (by simp)
    have : toLowerB d = d := by simp [toLowerB, hd]
    simp [this, ih (fun b hb => h b (by simp [hb]))]

/-- The byte-level translation output contains no uppercase byte. -/
theorem camel2SnakeBytes_no_upper (s : List Nat) :
    ∀ b ∈ camel2SnakeBytes s, isUpperB b = false := by
  intro b hb
  simp only [camel2SnakeBytes, List.mem_map] at hb
  obtain ⟨a, _, ha⟩ := hb
  rw [← ha]
  exact isUpperB_toLowerB a

/-- The byte-level translation preserves the ASCII range. -/
theorem camel2SnakeBytes_ascii (s : List Nat) (h : ∀ b ∈ s, b < 128) :
    ∀ b ∈ camel2SnakeBytes s, b < 128 := by
  intro b hb
  simp only [camel2SnakeBytes, List.mem_map] at hb
  obtain ⟨a, ha, hab⟩ := hb
  rcases mem_c2sLoop s false a ha with hm | hm
  · exact hab ▸ toLowerB_lt_128 a (h a hm)
  · subst hm
    rw [← hab]
    decide

/-- Byte-level idempotence of the field-name translation. -/
theorem camel2SnakeBytes_idem (s : List Nat) :
    camel2SnakeBytes (camel2SnakeBytes s) = camel2SnakeBytes s := by
  have hnu := camel2SnakeBytes_no_upper s
  show (c2sLoop (camel2SnakeBytes s) false).map toLowerB = camel2SnakeBytes s
  rw [c2sLoop_of_no_upper _ hnu false, map_toLowerB_of_no_upper _ hnu]

/-- Claim C1, counterexample: `Camel2Snake` does not treat an uppercase run as a
single boundary — `Camel2Snake "UserID"` is `"user_i_d"`, not `"user_id"`, and
`Camel2Snake "ID"` is `"i_d"`, not `"id"`. -/
theorem camel2Snake_acronym_counterexample :
    Camel2Snake "UserID" = "user_i_d" ∧ ¬ Camel2Snake "UserID" = "user_id" ∧
    Camel2Snake "ID" = "i_d" ∧ ¬ Camel2Snake "ID" = "id" := by
  refine ⟨by decide, by decide, by decide, by decide⟩

/-- Claim C1 as amended: once a non-underscore byte has been seen, the translator
inserts one underscore before every uppercase letter — one per letter of an
uppercase run, not one per run; in particular `Camel2Snake "UserID" = "user_i_d"`,
`Camel2Snake "user_id" = "user_id"` (idempotent on snake_case input), and
`Camel2Snake "ID" = "i_d"`. -/
theorem camel2Snake_per_letter :
    (∀ (d : Nat) (rest : List Nat),
        c2sLoop (d :: rest) true = (if isUpperB d then [95, d] else [d]) ++ c2sLoop rest true) ∧
    Camel2Snake "UserID" = "user_i_d" ∧ Camel2Snake "user_id" = "user_id" ∧
    Camel2Snake "ID" = "i_d" := by
  refine ⟨fun d rest => ?_, by decide, by decide, by decide⟩
  simp [c2sLoop]

/-- Claim C9: the field-name translator is idempotent on every ASCII string. -/
theorem camel2Snake_idempotent (s : String) (h : ∀ c ∈ s.data, c.toNat < 128) :
    Camel2Snake (Camel2Snake s) = Camel2Snake s := by
  unfold Camel2Snake
  have hasc : ∀ b ∈ camel2SnakeBytes (strBytes s), b < 128 := by
    refine camel2SnakeBytes_ascii _ ?_
    intro b hb
    simp only [strBytes, List.mem_map] at hb
    obtain ⟨c, hc, rfl⟩ := hb
    exact h c hc
  rw [strBytes_bytesStr _ hasc, camel2SnakeBytes_idem]

/-- Claim C9, witness: idempotence applied at the concrete input `"UserID"`. -/
theorem camel2Snake_idempotent_witness :
    Camel2Snake (Camel2Snake "UserID") = Camel2Snake "UserID" :=
  camel2Snake_idempotent "UserID" (by decide)


/-- Reading a one-longer map: the head binding shadows the tail. -/
theorem gmLookup_cons (x : String × GVal) (m : GMap) (k : String) :
    gmLookup (x :: m) k = if x.1 = k then some x.2 else gmLookup m k := by
  by_cases h : x.1 = k
  · simp [gmLookup, List.find?_cons_of_pos, h]
  · rw [if_neg h]
    unfold gmLookup
    rw [List.find?_cons_of_neg _ (by simp [h])]

/-- Looking a key up after `delete(m, k0)` gives `none` for `k0` and is otherwise
unchanged. -/
theorem gmLookup_eraseKey (m : GMap) (k0 k : String) :
    gmLookup (eraseKey m k0) k = if k = k0 then none else gmLookup m k := by
  induction m with
  | nil => simp [gmLookup, eraseKey]
  | cons x rest ih =>
    simp only [eraseKey, List.filter_cons] at ih ⊢
    by_cases h1 : x.1 = k0
    · rw [if_neg (by simp [h1])]
      rw [ih, gmLookup_cons]
      by_cases h2 : k = k0
      · simp [h2]
      · rw [if_neg h2, if_neg h2, if_neg (by rw [h1]; exact fun hh => h2 hh.symm)]
    · rw [if_pos (by simp [h1])]
      rw [gmLookup_cons, gmLookup_cons, ih]
      by_cases h2 : x.1 = k
      · rw [if_pos h2, if_pos h2, if_neg (by rw [← h2]; exact h1)]
      · rw [if_neg h2, if_neg h2]

/-- `recursiveDeleteAutoTime` removes exactly the keys equal to the Go field name
of some auto-timestamp field, and leaves every other binding readable as before. -/
theorem gmLookup_recursiveDeleteAutoTime (fields : GField) (upd : GMap) (k : String) :
    gmLookup (recursiveDeleteAutoTime fields upd) k =
      if isAutoFieldName fields k = true then none else gmLookup upd k := by
  induction fields generalizing upd with
  | fnil => simp [recursiveDeleteAutoTime, isAutoFieldName]
  | plain name tag rest ih =>
    simp only [recursiveDeleteAutoTime]
    rw [ih]
    by_cases hauto : isAutoTag tag = true
    · by_cases hname : name = k
      · subst hname
        simp [isAutoFieldName, hauto, gmLookup_eraseKey]
      · simp [isAutoFieldName, hauto, hname, gmLookup_eraseKey, Ne.symm hname]
    · have hf : isAutoTag tag = false := by revert hauto; cases isAutoTag tag <;> simp
      simp [isAutoFieldName, hf]
  | embedded nm sub rest ihsub ih =>
    simp only [recursiveDeleteAutoTime]
    rw [ih, ihsub]
    cases h1 : isAutoFieldName sub k <;> cases h2 : isAutoFieldName rest k <;>
      simp [isAutoFieldName, h1, h2]

/-- Claim C4, counterexample: a key addressing an auto-managed timestamp field by
its column name survives the strip — with field `CreateAt` tagged
`column:create_at;autoCreateTime`, the update-map key `"create_at"` (that field's
column) is still present in the applied update, while the Go-field-name key
`"CreateAt"` is removed. -/
theorem updateByMap_column_key_not_stripped_counterexample :
    isAutoTag "column:create_at;autoCreateTime" = true ∧
    columnNameOf (fun n => n) "CreateAt" "column:create_at;autoCreateTime" = "create_at" ∧
    (UpdateByMap (fun n => n) (GField.plain "CreateAt" "column:create_at;autoCreateTime" .fnil)
        [] [] [("create_at", GVal.gi 5)]).updateDataAfter = [("create_at", GVal.gi 5)] ∧
    gmLookup (recursiveDeleteAutoTime
        (GField.plain "CreateAt" "column:create_at;autoCreateTime" .fnil)
        [("create_at", GVal.gi 5)]) "create_at" = some (GVal.gi 5) ∧
    gmLookup (recursiveDeleteAutoTime
        (GField.plain "CreateAt" "column:create_at;autoCreateTime" .fnil)
        [("CreateAt", GVal.gi 5)]) "CreateAt" = none := by
  refine ⟨by decide, by decide, by decide, by decide, by decide⟩

/-- Claim C4 as amended: `UpdateByMap` and `UpdateByPKWithMap` remove from
`updateData` exactly the keys equal to the *Go field name* of a field whose tag
marks it as an auto-managed creation or update timestamp (not set to false,
including fields of embedded structs), even when the caller explicitly included
that key; keys addressing such a field by its column name are not removed. -/
theorem updateByMap_strips_goFieldName_keys (naming : String → String) (fields : GField)
    (tbl : Table) (cond upd : GMap) (pkCol : String) (pk : GVal) (k : String) :
    gmLookup (UpdateByMap naming fields tbl cond upd).updateDataAfter k =
      (if isAutoFieldName fields k = true then none else gmLookup upd k) ∧
    gmLookup (UpdateByPKWithMap naming fields pkCol tbl pk upd).updateDataAfter k =
      (if isAutoFieldName fields k = true then none else gmLookup upd k) :=
  ⟨gmLookup_recursiveDeleteAutoTime fields upd k,
   gmLookup_recursiveDeleteAutoTime fields upd k⟩

/-- Claim C10: `UpdateByMap` (and `UpdateByPKWithMap`, which delegates to it)
leaves the caller's condition map untouched — the condition is copied into a
fresh normalized map — while the caller's `updateData` map after the call is the
stripped map, with exactly the Go-field-name keys of auto-timestamp fields
deleted in place. -/
theorem updateByMap_frame_effects (naming : String → String) (fields : GField)
    (tbl : Table) (cond upd : GMap) (pkCol : String) (pk : GVal) :
    (UpdateByMap naming fields tbl cond upd).conditionAfter = cond ∧
    (UpdateByMap naming fields tbl cond upd).updateDataAfter =
      recursiveDeleteAutoTime fields upd ∧
    (∀ k, gmLookup (UpdateByMap naming fields tbl cond upd).updateDataAfter k =
      if isAutoFieldName fields k = true then none else gmLookup upd k) ∧
    UpdateByPKWithMap naming fields pkCol tbl pk upd =
      UpdateByMap naming fields tbl [(pkCol, pk)] upd :=
  ⟨rfl, rfl, fun k => gmLookup_recursiveDeleteAutoTime fields upd k, rfl⟩

/-- True when some reachable exported field (recursing into exported embedded
fields, as `recursiveParsePrimaryKey` does) carries a truthy explicit
primary-key tag. -/
def hasPKTag : GField → Bool
  | .fnil => false
  | .plain name tag rest =>
    (isExported name &&
      CheckTruth [tagGet (parseTagSetting tag) "PRIMARYKEY",
        tagGet (parseTagSetting tag) "PRIMARY_KEY"]) ||
    hasPKTag rest
  | .embedded name sub rest => (isExported name && hasPKTag sub) || hasPKTag rest

/-- True when some reachable exported field maps to column `"id"`. -/
def hasIdCol (naming : String → String) : GField → Bool
  | .fnil => false
  | .plain name tag rest =>
    (isExported name && (columnNameOf naming name tag == "id")) || hasIdCol naming rest
  | .embedded name sub rest =>
    (isExported name && hasIdCol naming sub) || hasIdCol naming rest

/-- True when the shape has no embedded field (a flat struct). -/
def allPlain : GField → Bool
  | .fnil => true
  | .plain _ _ rest => allPlain rest
  | .embedded _ _ _ => false

/-- The column of the first exported field with a truthy explicit primary-key
tag, scanning a flat shape in declaration order. -/
def firstTaggedCol (naming : String → String) : GField → Option String
  | .fnil => none
  | .plain name tag rest =>
    if isExported name &&
        CheckTruth [tagGet (parseTagSetting tag) "PRIMARYKEY",
          tagGet (parseTagSetting tag) "PRIMARY_KEY"] then
      some (columnNameOf naming name tag)
    else firstTaggedCol naming rest
  | .embedded _ _ rest => firstTaggedCol naming rest

/-- On a shape with no explicit primary-key tag anywhere, the resolution scan
returns `"id"` exactly when the incoming flag is set or some reachable field
maps to column `"id"`, and `""` otherwise. -/
theorem rppkGo_no_tag (naming : String → String) (fields : GField)
    (h : hasPKTag fields = false) (hasId : Bool) :
    rppkGo naming fields hasId =
      if (hasId || hasIdCol naming fields) = true then "id" else "" := by
  induction fields generalizing hasId with
  | fnil => simp [rppkGo, hasIdCol]
  | plain name tag rest ih =>
    simp only [hasPKTag, Bool.or_eq_false_iff, Bool.and_eq_false_iff] at h
    by_cases hexp : isExported name = true
    · have hck : CheckTruth [tagGet (parseTagSetting tag) "PRIMARYKEY",
          tagGet (parseTagSetting tag) "PRIMARY_KEY"] = false := by
        rcases h.1 with h1 | h1
        · rw [hexp] at h1; cases h1
        · exact h1
      simp only [rppkGo, hexp, if_true, hck, Bool.false_eq_true, if_false]
      rw [ih h.2]
      simp [hasIdCol, hexp, Bool.or_assoc]
    · have hexp2 : isExported name = false := by
        revert hexp; cases isExported name <;> simp
      simp only [rppkGo, hexp2, Bool.false_eq_true, if_false]
      rw [ih h.2]
      simp [hasIdCol, hexp2]
  | embedded name sub rest ihsub ih =>
    simp only [hasPKTag, Bool.or_eq_false_iff, Bool.and_eq_false_iff] at h
    by_cases hexp : isExported name = true
    · have hsub : hasPKTag sub = false := by
        rcases h.1 with h1 | h1
        · rw [hexp] at h1; cases h1
        · exact h1
      have hres := ihsub hsub false
      simp only [Bool.false_or] at hres
      simp only [rppkGo, hexp, if_true]
      cases hid : hasIdCol naming sub with
      | true =>
        rw [hres]
        simp [hasIdCol, hexp, hid]
      | false =>
        rw [hres]
        simp only [hid, Bool.false_eq_true, if_false, ne_eq, not_true_eq_false,
          if_false]
        rw [ih h.2]
        simp [hasIdCol, hexp, hid]
    · have hexp2 : isExported name = false := by
        revert hexp; cases isExported name <;> simp
      simp only [rppkGo, hexp2, Bool.false_eq_true, if_false]
      rw [ih h.2]
      simp [hasIdCol, hexp2]

/-- On a flat shape (no embedded fields), an explicit primary-key tag wins
regardless of where `"id"`-columned fields sit: the scan returns the first
tagged exported field's column whatever the incoming flag. -/
theorem rppkGo_flat_tagged (naming : String → String) (fields : GField) (c : String)
    (hflat : allPlain fields = true) (hc : firstTaggedCol naming fields = some c)
    (hasId : Bool) :
    rppkGo naming fields hasId = c := by
  induction fields generalizing hasId with
  | fnil => simp [firstTaggedCol] at hc
  | plain name tag rest ih =>
    simp only [allPlain] at hflat
    by_cases hexp : isExported name = true
    · by_cases hck : CheckTruth [tagGet (parseTagSetting tag) "PRIMARYKEY",
          tagGet (parseTagSetting tag) "PRIMARY_KEY"] = true
      · simp only [firstTaggedCol, hexp, hck, Bool.and_self, if_true,
          Option.some.injEq] at hc
        simp [rppkGo, hexp, hck, hc]
      · have hck2 : CheckTruth [tagGet (parseTagSetting tag) "PRIMARYKEY",
            tagGet (parseTagSetting tag) "PRIMARY_KEY"] = false := by
          revert hck; cases CheckTruth [tagGet (parseTagSetting tag) "PRIMARYKEY",
            tagGet (parseTagSetting tag) "PRIMARY_KEY"] <;> simp
        simp only [firstTaggedCol, hexp, hck2, Bool.and_false, Bool.false_eq_true,
          if_false] at hc
        simp only [rppkGo, hexp, if_true, hck2, Bool.false_eq_true, if_false]
        exact ih hflat hc _
    · have hexp2 : isExported name = false := by
        revert hexp; cases isExported name <;> simp
      simp only [firstTaggedCol, hexp2, Bool.false_and, Bool.false_eq_true,
        if_false] at hc
      simp only [rppkGo, hexp2, Bool.false_eq_true, if_false]
      exact ih hflat hc _
  | embedded name sub rest ihsub ih =>
    simp [allPlain] at hflat

/-- Claim C2, counterexample: an embedded field whose type has no explicit
primary-key tag but a field mapping to column `"id"` makes the recursion return
`"id"` immediately, shadowing a later top-level field with an explicit
primary-key tag and column `"code"` — so the explicit tag does *not* take
priority over an `"id"`-named field at any level. -/
theorem recursiveParsePrimaryKey_embedded_id_shadows_tag_counterexample :
    recursiveParsePrimaryKey (fun n => n)
      (GField.embedded "ModelBaseInfo" (GField.plain "ID" "column:id" .fnil)
        (GField.plain "Code" "column:code;primaryKey" .fnil)) = "id" ∧
    hasPKTag
      (GField.embedded "ModelBaseInfo" (GField.plain "ID" "column:id" .fnil)
        (GField.plain "Code" "column:code;primaryKey" .fnil)) = true ∧
    CheckTruth [tagGet (parseTagSetting "column:code;primaryKey") "PRIMARYKEY",
      tagGet (parseTagSetting "column:code;primaryKey") "PRIMARY_KEY"] = true ∧
    columnNameOf (fun n => n) "Code" "column:code;primaryKey" = "code" ∧
    ¬ recursiveParsePrimaryKey (fun n => n)
      (GField.embedded "ModelBaseInfo" (GField.plain "ID" "column:id" .fnil)
        (GField.plain "Code" "column:code;primaryKey" .fnil)) = "code" := by
  refine ⟨by decide, by decide, by decide, by decide, by decide⟩

/-- Claim C2 as amended: with no explicit primary-key tag anywhere, resolution
returns `"id"` when some field (including embedded ones) maps to column `"id"`
and `""` when none does; and within a flat struct the first explicit tag wins
regardless of `"id"`-named fields. The cross-level priority of the original
claim fails: an embedded field resolving non-empty (even via the `"id"`
fallback) returns before later fields are examined. -/
theorem recursiveParsePrimaryKey_characterization (naming : String → String)
    (fields : GField) (c : String) :
    (hasPKTag fields = false → hasIdCol naming fields = true →
        recursiveParsePrimaryKey naming fields = "id") ∧
    (hasPKTag fields = false → hasIdCol naming fields = false →
        recursiveParsePrimaryKey naming fields = "") ∧
    (allPlain fields = true → firstTaggedCol naming fields = some c →
        recursiveParsePrimaryKey naming fields = c) := by
  refine ⟨fun h hid => ?_, fun h hid => ?_, fun hflat hc => ?_⟩
  · unfold recursiveParsePrimaryKey
    rw [rppkGo_no_tag naming fields h false]
    simp [hid]
  · unfold recursiveParsePrimaryKey
    rw [rppkGo_no_tag naming fields h false]
    simp [hid]
  · exact rppkGo_flat_tagged naming fields c hflat hc false

/-- Claim C2, witness: the characterization applied at three concrete record
shapes — an untagged shape with an `id` column resolves to `"id"`, an untagged
shape without one resolves to `""`, and a flat shape with an `id` column before
an explicitly tagged `code` column resolves to `"code"`. -/
theorem recursiveParsePrimaryKey_characterization_witness :
    recursiveParsePrimaryKey (fun n => n) (GField.plain "ID" "column:id" .fnil) = "id" ∧
    recursiveParsePrimaryKey (fun n => n) (GField.plain "Name" "column:name" .fnil) = "" ∧
    recursiveParsePrimaryKey (fun n => n)
      (GField.plain "ID" "column:id"
        (GField.plain "Code" "column:code;primaryKey" .fnil)) = "code" :=
  ⟨(recursiveParsePrimaryKey_characterization (fun n => n)
      (GField.plain "ID" "column:id" .fnil) "").1 (by decide) (by decide),
   (recursiveParsePrimaryKey_characterization (fun n => n)
      (GField.plain "Name" "column:name" .fnil) "").2.1 (by decide) (by decide),
   (recursiveParsePrimaryKey_characterization (fun n => n)
      (GField.plain "ID" "column:id"
        (GField.plain "Code" "column:code;primaryKey" .fnil)) "code").2.2
     (by decide) (by decide)⟩

/-- Claim C5, counterexample: deleting the only row by primary key (or by map)
leaves an empty table — the row is physically removed, not retained with its
soft-delete marker set to `Deleted`. -/
theorem deleteByPK_physical_counterexample :
    (DeleteByPK "id" [[("id", GVal.gi 1), ("deleted", GVal.gi 1)]] (GVal.gi 1)).1 = [] ∧
    ¬ (DeleteByPK "id" [[("id", GVal.gi 1), ("deleted", GVal.gi 1)]] (GVal.gi 1)).1
        = [[("id", GVal.gi 1), ("deleted", GVal.gi Deleted)]] ∧
    (DeleteByMap [[("id", GVal.gi 1), ("deleted", GVal.gi 1)]] [("id", GVal.gi 1)]).1 = [] := by
  refine ⟨by decide, by decide, by decide⟩

/-- Claim C5 as amended: `DeleteByPK` and `DeleteByMap` perform physical
deletion — every matching row is removed from the store (gorm's `Delete` on a
model whose marker is a plain integer field issues a physical SQL DELETE), every
non-matching row is kept unchanged, and the affected-row count is the number of
matching rows; the soft-delete marker is not written. -/
theorem delete_physically_removes_matching (pkCol : String) (tbl : Table) (pk : GVal)
    (condition : GMap) :
    (∀ r, r ∈ (DeleteByPK pkCol tbl pk).1 ↔
        r ∈ tbl ∧ evalConds (atomsOfEq [(pkCol, pk)]) r = false) ∧
    (DeleteByPK pkCol tbl pk).2 =
      ((tbl.filter (fun r => evalConds (atomsOfEq [(pkCol, pk)]) r)).length : Int) ∧
    (∀ r, r ∈ (DeleteByMap tbl condition).1 ↔
        r ∈ tbl ∧ evalConds (atomsOfEq (camel2SnakeForMapKey condition)) r = false) ∧
    (DeleteByMap tbl condition).2 =
      ((tbl.filter
          (fun r => evalConds (atomsOfEq (camel2SnakeForMapKey condition)) r)).length : Int) := by
  refine ⟨fun r => ?_, rfl, fun r => ?_, rfl⟩
  · simp [DeleteByPK, List.mem_filter]
  · simp [DeleteByMap, List.mem_filter]

/-- A successful single-row result is one of the rows the query matched. -/
theorem selectOne_ok_mem (tbl : Table) (condition : List Atom) (r : Row)
    (h : selectOne tbl condition = .ok (some r)) : r ∈ _select tbl condition := by
  simp only [selectOne] at h
  split at h
  · simp at h
  · split at h
    · simp at h
    · simp only [Except.ok.injEq] at h
      exact List.mem_of_mem_head? (h ▸ rfl)

/-- Claim C6: a single-row lookup returns `(nil, nil)` on zero matches, the
record on exactly one match, and an error on two or more matches; not-found is
never an error. `SelectOne`, `SelectOneByMap` and `SelectOneByPK` are the
corresponding instances of `selectOne`. -/
theorem selectOne_trichotomy (tbl : Table) (condition : List Atom) (m nz : GMap)
    (pkCol : String) (pk : GVal) :
    (selectOne tbl condition = .ok none ↔ (_select tbl condition).length = 0) ∧
    ((∃ r, selectOne tbl condition = .ok (some r) ∧ r ∈ _select tbl condition) ↔
        (_select tbl condition).length = 1) ∧
    ((∃ e, selectOne tbl condition = .error e) ↔ 2 ≤ (_select tbl condition).length) ∧
    SelectOne tbl nz = selectOne tbl (atomsOfEq nz) ∧
    SelectOneByMap tbl m = selectOne tbl (atomsOfEq (camel2SnakeForMapKey m)) ∧
    SelectOneByPK pkCol tbl pk = SelectOneByMap tbl [(pkCol, pk)] := by
  refine ⟨?_, ?_, ?_, rfl, rfl, rfl⟩
  · by_cases h0 : (_select tbl condition).length = 0
    · simp [selectOne, h0]
    · by_cases h1 : (_select tbl condition).length > 1
      · simp [selectOne, h0, h1]
      · have hlen : (_select tbl condition).length = 1 := by omega
        obtain ⟨r0, hr0⟩ := List.length_eq_one.mp hlen
        simp [selectOne, h0, h1, hr0]
  · by_cases h0 : (_select tbl condition).length = 0
    · simp [selectOne, h0]
    · by_cases h1 : (_select tbl condition).length > 1
      · constructor
        · rintro ⟨r, hr, _⟩
          simp [selectOne, h0, h1] at hr
        · intro h
          omega
      · have hlen : (_select tbl condition).length = 1 := by omega
        obtain ⟨r0, hr0⟩ := List.length_eq_one.mp hlen
        constructor
        · intro _
          exact hlen
        · intro _
          refine ⟨r0, ?_, by rw [hr0]; exact List.mem_singleton_self r0⟩
          simp [selectOne, h0, h1, hr0]
  · by_cases h0 : (_select tbl condition).length = 0
    · constructor
      · rintro ⟨e, he⟩
        simp [selectOne, h0] at he
      · intro h
        omega
    · by_cases h1 : (_select tbl condition).length > 1
      · constructor
        · intro _
          omega
        · intro _
          exact ⟨"db: select one error, result must be one", by simp [selectOne, h0, h1]⟩
      · have hlen : (_select tbl condition).length = 1 := by omega
        obtain ⟨r0, hr0⟩ := List.length_eq_one.mp hlen
        constructor
        · rintro ⟨e, he⟩
          simp [selectOne, h0, h1, hr0] at he
        · intro h
          omega

/-- True when the row's soft-delete marker column holds the `Deleted` value. -/
def markedDeleted (r : Row) : Bool := gmLookup r "deleted" == some (GVal.gi Deleted)

/-- True unless a successful single-row result carries the `Deleted` marker. -/
def exceptRowOk : Except String (Option Row) → Bool
  | .ok (some r) => !markedDeleted r
  | _ => true

/-- A row satisfying the standing predicate `deleted != Deleted` does not carry
the `Deleted` marker. -/
theorem evalAtom_soft_marked (r : Row) (h : evalAtom softAtom r = true) :
    markedDeleted r = false := by
  unfold markedDeleted
  simp only [softAtom, evalAtom] at h
  cases hg : gmLookup r "deleted" with
  | none => simp
  | some w =>
    rw [hg] at h
    simp only [bne_iff_ne, ne_eq] at h
    simp [h]

/-- Every row `_select` returns satisfies the standing soft-delete predicate. -/
theorem mem_uselect_not_deleted (tbl : Table) (condition : List Atom) (r : Row)
    (h : r ∈ _select tbl condition) : markedDeleted r = false := by
  unfold _select at h
  rw [List.mem_filter] at h
  exact evalAtom_soft_marked r (Bool.and_elim_left h.2)

/-- Every row a paginated fetch returns comes from the matching set. -/
theorem mem_pageFetch (matching : List Row) (p : PageParam) (cmp : Row → Row → Bool)
    (r : Row) (h : r ∈ pageFetch matching p cmp) : r ∈ matching := by
  simp only [pageFetch, applyLimit, applyOffset] at h
  have hord : r ∈ (if (p.orderBy != "") = true then matching.mergeSort cmp else matching) := by
    split at h
    · exact List.mem_of_mem_drop h
    · exact List.mem_of_mem_drop (List.mem_of_mem_take h)
  split at hord
  · exact (List.mergeSort_perm matching cmp).subset hord
  · exact hord

/-- Every row `ListPage` returns satisfies its filter (which ends with the
standing soft-delete predicate). -/
theorem mem_listPage (tbl : Table) (query : List Atom) (page : Option PageParam)
    (cmp : Row → Row → Bool) (r : Row) (h : r ∈ (ListPage tbl query page cmp).1) :
    r ∈ tbl.filter (evalConds (query ++ [softAtom])) := by
  simp only [ListPage] at h
  cases page with
  | none => exact h
  | some p => exact mem_pageFetch _ p cmp r h

/-- Every row `PageSelect` returns satisfies its filter (which starts with the
standing soft-delete predicate). -/
theorem mem_pageSelect (tbl : Table) (query : List Atom) (page : Option PageParam)
    (cmp : Row → Row → Bool) (r : Row) (h : r ∈ (PageSelect tbl query page cmp).1) :
    r ∈ tbl.filter (evalConds (softAtom :: query)) := by
  simp only [PageSelect] at h
  cases page with
  | none => exact h
  | some p => exact mem_pageFetch _ p cmp r h

/-- A row passing a conjunction that ends with the soft-delete predicate is not
marked deleted. -/
theorem filter_append_soft_not_deleted (tbl : Table) (query : List Atom) (r : Row)
    (h : r ∈ tbl.filter (evalConds (query ++ [softAtom]))) : markedDeleted r = false := by
  rw [List.mem_filter] at h
  have h2 := h.2
  unfold evalConds at h2
  rw [List.all_append] at h2
  have h3 := Bool.and_elim_right h2
  simp only [List.all_cons, List.all_nil, Bool.and_true] at h3
  exact evalAtom_soft_marked r h3

/-- A row passing a conjunction that starts with the soft-delete predicate is not
marked deleted. -/
theorem filter_cons_soft_not_deleted (tbl : Table) (query : List Atom) (r : Row)
    (h : r ∈ tbl.filter (evalConds (softAtom :: query))) : markedDeleted r = false := by
  rw [List.mem_filter] at h
  have h2 := h.2
  unfold evalConds at h2
  simp only [List.all_cons] at h2
  exact evalAtom_soft_marked r (Bool.and_elim_left h2)

/-- Claim C3: every read operation — `SelectOne`, `SelectOneByPK`,
`SelectOneByMap`, `Select`, `SelectAll`, `SelectByPK`, `SelectByMap`, `ListPage`,
`PageSelect` — never includes a row whose soft-delete marker equals `Deleted`,
whatever the caller-supplied condition. -/
theorem reads_exclude_soft_deleted (tbl : Table) (nz condition : GMap) (pkCol : String)
    (pk : GVal) (query : List Atom) (page : Option PageParam) (cmp : Row → Row → Bool) :
    ((Select tbl nz).all fun r => !markedDeleted r) = true ∧
    ((SelectAll tbl).all fun r => !markedDeleted r) = true ∧
    ((SelectByPK pkCol tbl pk).all fun r => !markedDeleted r) = true ∧
    ((SelectByMap tbl condition).all fun r => !markedDeleted r) = true ∧
    ((ListPage tbl query page cmp).1.all fun r => !markedDeleted r) = true ∧
    ((PageSelect tbl query page cmp).1.all fun r => !markedDeleted r) = true ∧
    exceptRowOk (SelectOne tbl nz) = true ∧
    exceptRowOk (SelectOneByPK pkCol tbl pk) = true ∧
    exceptRowOk (SelectOneByMap tbl condition) = true := by
  have hall : ∀ (c : List Atom), ((_select tbl c).all fun r => !markedDeleted r) = true := by
    intro c
    rw [List.all_eq_true]
    intro r hr
    rw [mem_uselect_not_deleted tbl c r hr]
    rfl
  have hone : ∀ (c : List Atom), exceptRowOk (selectOne tbl c) = true := by
    intro c
    cases hs : selectOne tbl c with
    | error e => rfl
    | ok o =>
      cases o with
      | none => rfl
      | some r =>
        have := mem_uselect_not_deleted tbl c r (selectOne_ok_mem tbl c r hs)
        simp [exceptRowOk, this]
  refine ⟨hall _, hall _, hall _, hall _, ?_, ?_, hone _, hone _, hone _⟩
  · rw [List.all_eq_true]
    intro r hr
    rw [filter_append_soft_not_deleted tbl query r (mem_listPage tbl query page cmp r hr)]
    rfl
  · rw [List.all_eq_true]
    intro r hr
    rw [filter_cons_soft_not_deleted tbl query r (mem_pageSelect tbl query page cmp r hr)]
    rfl

/-- `int32` wrapping is the identity on in-range values. -/
theorem int32wrap_eq_self (n : Int) (h1 : -(2 ^ 31) ≤ n) (h2 : n < 2 ^ 31) :
    int32wrap n = n := by
  unfold int32wrap
  omega

/-- With a 1-based in-range page number, a non-negative page size and no
ordering clause, the paginated fetch is exactly drop-offset-then-take-limit of
the matching rows. -/
theorem pageFetch_eq_drop_take (matching : List Row) (p : PageParam)
    (cmp : Row → Row → Bool) (h1 : 1 ≤ p.pageNo) (h2 : p.pageNo < 2 ^ 31)
    (h3 : 0 ≤ p.pageSize) (h5 : p.orderBy = "") :
    pageFetch matching p cmp =
      (matching.drop ((p.pageNo - 1) * p.pageSize).toNat).take p.pageSize.toNat := by
  unfold pageFetch applyLimit applyOffset
  rw [h5]
  rw [int32wrap_eq_self (p.pageNo - 1) (by omega) (by omega)]
  simp only [bne_self_eq_false, Bool.false_eq_true, if_false]
  rw [if_neg (by omega : ¬ p.pageSize < 0)]

/-- Claim C7: with a page descriptor `{pageNo, pageSize}` (1-based page number,
non-negative size, no order-by clause, counts within `int32` range), `ListPage`
and `PageSelect` return the matching rows at offset `(pageNo-1)*pageSize` with
limit `pageSize` and a total equal to the full matching count from the count
query issued before the bounded fetch (the zero-count fallback coincides with
it); with a nil page descriptor they return all matching rows with total equal
to the returned row count. -/
theorem pagination_window (tbl : Table) (query : List Atom) (cmp : Row → Row → Bool)
    (p : PageParam) (h1 : 1 ≤ p.pageNo) (h2 : p.pageNo < 2 ^ 31) (h3 : 0 ≤ p.pageSize)
    (h5 : p.orderBy = "")
    (hlen1 : ((tbl.filter (evalConds (query ++ [softAtom]))).length : Int) < 2 ^ 31)
    (hlen2 : ((tbl.filter (evalConds (softAtom :: query))).length : Int) < 2 ^ 31) :
    ListPage tbl query (some p) cmp =
      (((tbl.filter (evalConds (query ++ [softAtom]))).drop
          ((p.pageNo - 1) * p.pageSize).toNat).take p.pageSize.toNat,
        ((tbl.filter (evalConds (query ++ [softAtom]))).length : Int)) ∧
    PageSelect tbl query (some p) cmp =
      (((tbl.filter (evalConds (softAtom :: query))).drop
          ((p.pageNo - 1) * p.pageSize).toNat).take p.pageSize.toNat,
        ((tbl.filter (evalConds (softAtom :: query))).length : Int)) ∧
    ListPage tbl query none cmp =
      (tbl.filter (evalConds (query ++ [softAtom])),
        ((tbl.filter (evalConds (query ++ [softAtom]))).length : Int)) ∧
    PageSelect tbl query none cmp =
      (tbl.filter (evalConds (softAtom :: query)),
        ((tbl.filter (evalConds (softAtom :: query))).length : Int)) := by
  have key : ∀ (matching : List Row),
      (if ((matching.length : Int)) = 0
          then ((pageFetch matching p cmp).length : Int)
          else (matching.length : Int)) = (matching.length : Int) := by
    intro matching
    by_cases h0 : (matching.length : Int) = 0
    · have hm : matching = [] := by
        cases matching with
        | nil => rfl
        | cons a l =>
          simp only [List.length_cons] at h0
          exact absurd h0 (by omega)
      rw [if_pos h0, hm]
      rw [pageFetch_eq_drop_take [] p cmp h1 h2 h3 h5]
      simp
    · rw [if_neg h0]
  constructor
  · simp only [ListPage]
    rw [key _, int32wrap_eq_self _ (by omega) hlen1,
      pageFetch_eq_drop_take _ p cmp h1 h2 h3 h5]
  constructor
  · simp only [PageSelect]
    rw [key _, int32wrap_eq_self _ (by omega) hlen2,
      pageFetch_eq_drop_take _ p cmp h1 h2 h3 h5]
  constructor
  · simp only [ListPage, if_true]
    rw [int32wrap_eq_self _ (by omega) hlen1]
  · simp only [PageSelect, if_true]
    rw [int32wrap_eq_self _ (by omega) hlen2]

/-- Claim C7, witness: page 2 of size 10 over 25 matching live rows returns rows
11-20 with total 25. -/
theorem pagination_window_witness :
    ListPage ((List.range 25).map fun i => [("id", GVal.gi i), ("deleted", GVal.gi 1)]) []
        (some ⟨2, 10, ""⟩) (fun _ _ => true) =
      (((List.range 25).map fun i => [("id", GVal.gi i), ("deleted", GVal.gi 1)]).drop 10
          |>.take 10,
        (25 : Int)) := by
  have h := (pagination_window
      ((List.range 25).map fun i => [("id", GVal.gi i), ("deleted", GVal.gi 1)]) []
      (fun _ _ => true) ⟨2, 10, ""⟩ (by norm_num) (by norm_num) (by norm_num) rfl
      (by
        have h25 : (List.filter (evalConds ([] ++ [softAtom]))
            ((List.range 25).map fun i =>
              [("id", GVal.gi i), ("deleted", GVal.gi 1)])).length = 25 := by decide
        rw [h25]
        omega)
      (by
        have h25 : (List.filter (evalConds (softAtom :: []))
            ((List.range 25).map fun i =>
              [("id", GVal.gi i), ("deleted", GVal.gi 1)])).length = 25 := by decide
        rw [h25]
        omega)).1
  rw [h]
  decide

/-- Writes applied through the transaction handle never touch the base state. -/
theorem foldl_txStep_base (naming : String → String) (fields : GField) (ops : List DbOp)
    (tx : Tx) : (ops.foldl (txStep naming fields) tx).base = tx.base := by
  induction ops generalizing tx with
  | nil => rfl
  | cons op rest ih =>
    rw [List.foldl_cons, ih]
    rfl

/-- Writes applied through the transaction handle accumulate in the pending
state exactly as they would outside a transaction. -/
theorem foldl_txStep_pending (naming : String → String) (fields : GField) (ops : List DbOp)
    (tx : Tx) :
    (ops.foldl (txStep naming fields) tx).pending = runOps naming fields tx.pending ops := by
  induction ops generalizing tx with
  | nil => rfl
  | cons op rest ih =>
    rw [List.foldl_cons, ih]
    rfl

/-- Claim C8: `InTx` propagates the body's error verbatim; when the body
returns an error every write it performed through the transaction-scoped
context is rolled back — the resulting state is the original one, and any read
outside the transaction observes it unchanged — and when the body returns no
error its writes are committed. -/
theorem inTx_rollback_commit (naming : String → String) (fields : GField) (t : Table)
    (body : Table → List DbOp × Option String) :
    ((InTx naming fields t body).2 = (body t).2) ∧
    ((body t).2 = none →
        (InTx naming fields t body).1 = runOps naming fields t (body t).1) ∧
    (∀ e, (body t).2 = some e →
        (InTx naming fields t body).1 = t ∧ (InTx naming fields t body).2 = some e ∧
        ∀ condition : List Atom,
          _select (InTx naming fields t body).1 condition = _select t condition) := by
  refine ⟨?_, fun hnone => ?_, fun e he => ?_⟩
  · cases h : (body t).2 with
    | none => simp [InTx, txBegin, txCommit, txRollback, h]
    | some e => simp [InTx, txBegin, txCommit, txRollback, h]
  · simp only [InTx, txBegin, txCommit, hnone]
    exact foldl_txStep_pending naming fields (body t).1 ⟨t, t⟩
  · have hstate : (InTx naming fields t body).1 = t := by
      simp only [InTx, txBegin, txRollback, he]
      exact foldl_txStep_base naming fields (body t).1 ⟨t, t⟩
    refine ⟨hstate, ?_, fun condition => by rw [hstate]⟩
    simp [InTx, txBegin, txRollback, he]

/-- Claim C8, witness: a body inserting a row and returning an error leaves the
empty store empty and propagates the error; the same insert with no error is
committed. -/
theorem inTx_rollback_commit_witness :
    (InTx (fun n => n) .fnil []
        (fun _ => ([DbOp.ins [("id", GVal.gi 1)]], some "boom"))).1 = [] ∧
    (InTx (fun n => n) .fnil []
        (fun _ => ([DbOp.ins [("id", GVal.gi 1)]], some "boom"))).2 = some "boom" ∧
    (InTx (fun n => n) .fnil []
        (fun _ => ([DbOp.ins [("id", GVal.gi 1)]], none))).1 =
      runOps (fun n => n) .fnil [] [DbOp.ins [("id", GVal.gi 1)]] :=
  ⟨((inTx_rollback_commit (fun n => n) .fnil []
      (fun _ => ([DbOp.ins [("id", GVal.gi 1)]], some "boom"))).2.2 "boom" rfl).1,
   ((inTx_rollback_commit (fun n => n) .fnil []
      (fun _ => ([DbOp.ins [("id", GVal.gi 1)]], some "boom"))).2.2 "boom" rfl).2.1,
   (inTx_rollback_commit (fun n => n) .fnil []
      (fun _ => ([DbOp.ins [("id", GVal.gi 1)]], none))).2.1 rfl⟩
